import Mathlib

/-!
Verification of the `domgen` DOM-generation library (`src/dom/base_classes.py`).

The development shallowly embeds the Python source:

* Python strings are Lean `String`s; character-level work happens on `List Char`.
* Python dicts (insertion-ordered, unique keys) are association lists
  `List (String × _)`; assignment (`d[k] = v`) updates in place or appends,
  `pop` removes the entry.
* Python values that can appear as attribute values are modelled by `PyVal`.
* Fallible Python code (raising exceptions) returns `Option`/`Except`.
-/

namespace Domgen

/-! ## Python string primitives -/

/-- Python `s.replace("color", "colour")`, specialised: replaces every
non-overlapping occurrence of `color` left-to-right. -/
def replaceColorColour : List Char → List Char
  | 'c' :: 'o' :: 'l' :: 'o' :: 'r' :: rest => 'c' :: 'o' :: 'l' :: 'o' :: 'u' :: 'r' :: replaceColorColour rest
  | c :: rest => c :: replaceColorColour rest
  | [] => []

/-- Python `s.replace("colour", "color")`, specialised. -/
def replaceColourColor : List Char → List Char
  | 'c' :: 'o' :: 'l' :: 'o' :: 'u' :: 'r' :: rest => 'c' :: 'o' :: 'l' :: 'o' :: 'r' :: replaceColourColor rest
  | c :: rest => c :: replaceColourColor rest
  | [] => []

/-- Python `s.replace("__", " ")` (the placeholder step of the underscore
normalisation in `transform`). Patterns are kept disjoint so that the
equation lemmas are unconditional. -/
def replaceDunderSpace : List Char → List Char
  | [] => []
  | [c] => [c]
  | c1 :: c2 :: rest =>
    if c1 = '_' ∧ c2 = '_' then ' ' :: replaceDunderSpace rest
    else c1 :: replaceDunderSpace (c2 :: rest)

/-- Python `s.replace(a, b)` for single-character `a` and `b`: a character map. -/
def mapChar (a b : Char) (s : List Char) : List Char :=
  s.map fun c => if c = a then b else c

/-- Python `s.replace('"', "&quot;")` (attribute value quote-escaping). -/
def replaceQuot : List Char → List Char
  | [] => []
  | '"' :: rest => '&' :: 'q' :: 'u' :: 'o' :: 't' :: ';' :: replaceQuot rest
  | c :: rest => c :: replaceQuot rest

/-- Python `list.startswith` test used for the `data-` checks, at character level. -/
def startsWithData (k : List Char) : Bool :=
  List.isPrefixOf ['d', 'a', 't', 'a', '-'] k

/-! ## JSON encoding (`json.dumps` with its defaults, as used by `transform`) -/

/-- Lower-case hexadecimal digit, as produced by `json.dumps` `\uXXXX` escapes. -/
def hexDigitChar (n : Nat) : Char :=
  if n < 10 then Char.ofNat (48 + n) else Char.ofNat (87 + n)

/-- A `\uXXXX` escape for a 16-bit code unit. -/
def uEscape (n : Nat) : List Char :=
  ['\\', 'u', hexDigitChar (n / 4096 % 16), hexDigitChar (n / 256 % 16),
   hexDigitChar (n / 16 % 16), hexDigitChar (n % 16)]

/-- How `json.dumps` (default `ensure_ascii=True`) escapes one character inside
a JSON string literal. -/
def jsonEscapeChar (c : Char) : List Char :=
  if c = '\\' then ['\\', '\\']
  else if c = '"' then ['\\', '"']
  else if c = '\x08' then ['\\', 'b']
  else if c = '\x0c' then ['\\', 'f']
  else if c = '\n' then ['\\', 'n']
  else if c = '\r' then ['\\', 'r']
  else if c = '\t' then ['\\', 't']
  else if c.toNat < 0x20 ∨ 0x7e < c.toNat then
    if c.toNat < 0x10000 then uEscape c.toNat
    else uEscape (0xd800 + (c.toNat - 0x10000) / 0x400) ++ uEscape (0xdc00 + (c.toNat - 0x10000) % 0x400)
  else [c]

/-- Body of a JSON string literal. -/
def jsonEscape (s : List Char) : List Char :=
  (s.map jsonEscapeChar).flatten

/-- Python `json.dumps(s)` for a string `s`: a quoted, escaped JSON string literal. -/
def pyJsonStr (s : String) : String :=
  ⟨'"' :: jsonEscape s.data ++ ['"']⟩

/-! ## Python attribute values -/

/-- The Python values the library handles as attribute values: strings, ints,
booleans, sets of strings (for `classes`) and string-to-string dicts (for
`style`). -/
inductive PyVal where
  | str (s : String)
  | int (n : Int)
  | bool (b : Bool)
  | strSet (ss : List String)
  | strDict (d : List (String × String))
deriving DecidableEq

/-- Python truthiness for the modelled values. -/
def truthy : PyVal → Bool
  | .str s => s ≠ ""
  | .int n => n ≠ 0
  | .bool b => b
  | .strSet ss => ss ≠ []
  | .strDict d => d ≠ []

/-- Python `json.dumps(v)`. `none` models the `TypeError` raised on a `set`
argument (sets are not JSON-serialisable). -/
def jsonDumps : PyVal → Option String
  | .str s => some (pyJsonStr s)
  | .int n => some (toString n)
  | .bool b => some (if b then "true" else "false")
  | .strSet _ => none
  | .strDict d =>
    some ("\x7b" ++ String.intercalate ", " (d.map fun p => pyJsonStr p.1 ++ ": " ++ pyJsonStr p.2) ++ "\x7d")

/-! ## Insertion-ordered dictionaries as association lists -/

section AList

variable {α : Type}

/-- Python `d[k]` lookup (`k in d` is `(alistFind k d).isSome`). -/
def alistFind (k : String) : List (String × α) → Option α
  | [] => none
  | p :: rest => if p.1 = k then some p.2 else alistFind k rest

/-- Python `d[k] = v`: update in place when the key exists, else append. -/
def dictSet (k : String) (v : α) : List (String × α) → List (String × α)
  | [] => [(k, v)]
  | p :: rest => if p.1 = k then (k, v) :: rest else p :: dictSet k v rest

/-- Python `d.pop(k, ...)`'s removal effect. On valid dicts (no duplicate keys)
removing every entry with the key coincides with removing the entry. -/
def dictRemove (k : String) : List (String × α) → List (String × α)
  | [] => []
  | p :: rest => if p.1 = k then dictRemove k rest else p :: dictRemove k rest

/-- The keys of a dict, in order. -/
def alistKeys (d : List (String × α)) : List String :=
  d.map Prod.fst

end AList

/-! ## The attribute transform (`transform`, `src/dom/base_classes.py` lines 10-68) -/

/-- Python `" ".join` / `";".join` / `"".join` on a list of strings. -/
def joinSep (sep : String) : List String → String
  | [] => ""
  | [s] => s
  | s :: t :: rest => s ++ sep ++ joinSep sep (t :: rest)

/-- The candidate key computed for the colour-precedence check (lines 46-48):
the key itself for literal `data-` keys, otherwise the key with `color`
replaced by `colour`. -/
def colourCandidate (k : String) : String :=
  if startsWithData k.data then k else ⟨replaceColorColour k.data⟩

/-- Lines 57-59: remove a single trailing underscore. `none` models the
`IndexError` raised by `key[-1]` on an empty key or by `key[-2]` on the
one-character key `"_"`. -/
def stripTrailingUnderscore (k : List Char) : Option (List Char) :=
  match k.getLast? with
  | none => none
  | some c =>
    if c = '_' then
      match k.dropLast.getLast? with
      | none => none
      | some c2 => if c2 = '_' then some k else some k.dropLast
    else some k

/-- The underscore stage of key normalisation (lines 57-62): strip a single
trailing underscore, then `replace("__", " ").replace("_", "-").replace(" ", "_")`. -/
def underscoreStage (k : List Char) : Option (List Char) :=
  (stripTrailingUnderscore k).map fun k1 =>
    mapChar ' ' '_' (mapChar '_' '-' (replaceDunderSpace k1))

/-- Full key normalisation of one attribute key (lines 57-66): underscore
stage, then `colour` to `color` unless the resulting key starts with `data-`. -/
def normaliseKey (k : String) : Option String :=
  (underscoreStage k.data).map fun k2 =>
    if startsWithData k2 then (⟨k2⟩ : String) else (⟨replaceColourColor k2⟩ : String)

/-- Value encoding of one attribute value (lines 51-56): non-strings are JSON
serialised first; then literal `"` becomes `&quot;` and the result is JSON
serialised as a string. `none` models a `TypeError` from `json.dumps`. -/
def encodeValue : PyVal → Option String
  | .str s => some (pyJsonStr ⟨replaceQuot s.data⟩)
  | v => (jsonDumps v).map fun j => pyJsonStr ⟨replaceQuot j.data⟩

/-- The `classes` normalisation (lines 35-37): pop `classes`; when truthy it
must be a set (else `TypeError`, modelled as `none`) and `class` is set to the
space-join of the set minus the empty string. -/
def classStage (attrs : List (String × PyVal)) : Option (List (String × PyVal)) :=
  if truthy ((alistFind "classes" attrs).getD (.strSet [])) then
    match (alistFind "classes" attrs).getD (.strSet []) with
    | .strSet cs =>
      some (dictSet "class" (.str (joinSep " " (cs.filter fun c => c ≠ "")))
        (dictRemove "classes" attrs))
    | _ => none
  else some (dictRemove "classes" attrs)

/-- The `style` normalisation (lines 38-42): pop `style`; when truthy, a dict
value is serialised to minified CSS and the value is re-inserted. -/
def styleStage (attrs : List (String × PyVal)) : List (String × PyVal) :=
  if truthy ((alistFind "style" attrs).getD (.str "")) then
    match (alistFind "style" attrs).getD (.str "") with
    | .strDict kvs =>
      dictSet "style" (.str (joinSep ";" (kvs.map fun p => p.1 ++ ":" ++ p.2)))
        (dictRemove "style" attrs)
    | v => dictSet "style" v (dictRemove "style" attrs)
  else dictRemove "style" attrs

/-- The state of the input dictionary after `transform` returns: the `classes`
and `style` normalisations mutate the caller's dictionary (lines 35-42); the
per-pair loop does not touch it. -/
def transformState (attrs : List (String × PyVal)) : Option (List (String × PyVal)) :=
  (classStage attrs).map styleStage

/-- The per-pair loop of `transform` (lines 43-67). `lookup` is the dictionary
being iterated (used by the `unnormalised_colour in attributes` test), `items`
the remaining iteration, `acc` the `new_attributes` built so far. -/
def transformLoop (lookup : List (String × PyVal)) :
    List (String × PyVal) → List (String × String) → Option (List (String × String))
  | [], acc => some acc
  | (k, v) :: rest, acc =>
    if colourCandidate k ≠ k ∧ (alistFind (colourCandidate k) lookup).isSome then
      transformLoop lookup rest acc
    else
      match encodeValue v, normaliseKey k with
      | some ev, some nk => transformLoop lookup rest (dictSet nk ev acc)
      | _, _ => none

/-- `transform` (lines 10-68): returns the fresh `new_attributes` dictionary.
`none` models any exception raised on the way. -/
def transform (attrs : List (String × PyVal)) : Option (List (String × String)) := do
  let d ← transformState attrs
  transformLoop d d []

example : transform [("src", PyVal.str "a.png")] = some [("src", "\"a.png\"")] := by decide

example : transform [("background_colour", PyVal.str "red"), ("background_color", PyVal.str "blue")]
    = some [("background-color", "\"red\"")] := by decide

example : transform [("classes", PyVal.strSet ["a", "b", ""])] = some [("class", "\"a b\"")] := by
  decide

example : transformState [("classes", PyVal.strSet ["a"])] = some [("class", PyVal.str "a")] := by
  decide

example : transform [("aria_hidden", PyVal.str "true")] = some [("aria-hidden", "\"true\"")] := by
  decide

example : transform [("id__foo", PyVal.int 1)] = some [("id_foo", "\"1\"")] := by decide

/-! ## `textwrap.indent` and Python `str.splitlines(keepends=True)` -/

/-- The characters Python's `str.splitlines` treats as line boundaries. -/
def isLineBoundary (c : Char) : Bool :=
  c = '\n' ∨ c = '\r' ∨ c = '\x0b' ∨ c = '\x0c' ∨
  c = '\x1c' ∨ c = '\x1d' ∨ c = '\x1e' ∨ c = '\x85' ∨ c = '\u2028' ∨ c = '\u2029'

/-- Python `s.splitlines(keepends=True)`: each line keeps its boundary
character(s); `\r\n` counts as a single boundary. -/
def splitlines : List Char → List (List Char)
  | [] => []
  | [c] => [[c]]
  | c1 :: c2 :: rest =>
    if c1 = '\r' ∧ c2 = '\n' then ['\r', '\n'] :: splitlines rest
    else if isLineBoundary c1 then [c1] :: splitlines (c2 :: rest)
    else
      match splitlines (c2 :: rest) with
      | [] => [[c1]]
      | l :: ls => (c1 :: l) :: ls

/-- Python `textwrap.indent(text, pfx, lambda _: applyAll)`: when `applyAll`
holds every line (boundaries kept) is prefixed; otherwise the lines are
rejoined unchanged. -/
def pyIndent (pfx : String) (applyAll : Bool) (text : String) : String :=
  ⟨((splitlines text.data).map fun l => if applyAll then pfx.data ++ l else l).flatten⟩

/-! ## Element shapes (`Element` subclasses, lines 71-273)

An `Elem` is a fully constructed node: `text` holds its single string,
`container`/`void` hold their tag and the attribute mapping already produced
by `transform` (as `apply_attributes` stores it), `group` its children and
`component` the single composition-root child built by the subclass. -/

inductive Elem where
  | text (content : String)
  | container (tag : String) (attributes : List (String × String)) (content : List Elem)
  | void (tag : String) (attributes : List (String × String))
  | group (content : List Elem)
  | component (content : Elem)

/-- The attribute segment of an open tag:
`(" " + " ".join(f"{k}={v}" ...)) if self.attributes else ""`. -/
def attrString (a : List (String × String)) : String :=
  if a = [] then "" else " " ++ joinSep " " (a.map fun p => p.1 ++ "=" ++ p.2)

mutual

/-- `serialise(minify)` for each shape (lines 118-120, 156-177, 209-220,
254-257, 270-272). -/
def serialise : Elem → Bool → String
  | .text s, _ => s
  | .container t a cs, minify =>
      "<" ++ t ++ attrString a ++ ">" ++ (if minify then "" else "\n") ++
      pyIndent "    " (!minify) (joinSep (if minify then "" else "\n") (serialiseList cs minify)) ++
      (if minify then "" else "\n") ++ "</" ++ t ++ ">"
  | .void t a, _ => "<" ++ t ++ attrString a ++ " />"
  | .group cs, minify => joinSep (if minify then "" else "\n") (serialiseList cs minify)
  | .component e, minify => serialise e minify

/-- The serialisations of a list of children, in order. -/
def serialiseList : List Elem → Bool → List String
  | [], _ => []
  | e :: es, minify => serialise e minify :: serialiseList es minify

end

/-! ## Python-level failures -/

/-- The exception kinds the modelled code can raise. -/
inductive PyError where
  | typeError (msg : String)
  | indexError (msg : String)
  | attributeError (msg : String)
deriving DecidableEq

/-- A content item passed to `set_content`: an element or a raw string. -/
inductive ContentItem where
  | elem (e : Elem)
  | str (s : String)

/-- `Element.__str__` (lines 110-111): the pretty serialisation. -/
def strConv (e : Elem) : String :=
  serialise e false

/-- A call `e.serialise()` with no argument. Every shape declares
`minify: bool = True` except `ElementGroup.serialise` (line 254), whose
`minify` has no default, so the call itself raises `TypeError` there. -/
def serialiseNoArg : Elem → Except PyError String
  | .group _ => .error (.typeError "serialise() missing 1 required positional argument: 'minify'")
  | e => .ok (serialise e true)

/-- Construction `Void(tag, **attributes)` with no content: `apply_attributes`
stores `transform(attributes)` (lines 226-227). -/
def mkVoid (tag : String) (attributes : List (String × PyVal)) : Option Elem :=
  (transform attributes).map fun a => Elem.void tag a

/-- `TextElement.set_content` (lines 122-135). `existing` is the current
`self.content` if any (set on a reset, unset during construction).
The code subscripts `content[0]` before checking the length, so an empty
content list raises `IndexError`; the non-string branch formats
`type(self.content).__qualname__`, which raises `AttributeError` during
construction (the slot is not yet set) and reports the old content's type
(`str`) on a reset. -/
def textSetContent (existing : Option String) (content : List ContentItem) :
    Except PyError String :=
  match content.head? with
  | none => .error (.indexError "list index out of range")
  | some first =>
    match first with
    | .elem _ =>
      match existing with
      | none => .error (.attributeError "'TextElement' object has no attribute 'content'")
      | some _ => .error (.typeError "Text content must be a single string (got 'str')")
    | .str s =>
      if content.length ≠ 1 then
        .error (.typeError ("Text content must be a single string (got " ++
          toString content.length ++ " items)"))
      else .ok s

example : serialise (.container "div" [] [.text "hi"]) true = "<div>hi</div>" := by decide

example : serialise (.container "div" [] [.text "hi"]) false = "<div>\n    hi\n</div>" := by decide

example : mkVoid "img" [("src", PyVal.str "a.png")]
    = some (Elem.void "img" [("src", "\"a.png\"")]) := rfl

example : serialise (Elem.void "img" [("src", "\"a.png\"")]) true = "<img src=\"a.png\" />" := by
  decide

/-! ## Reference definitions written from the specification's words

These two definitions follow the sentences of §4.1 rules (c)/(d) of the
specification (net effect of the underscore handling), to be compared with
the code's `underscoreStage`. -/

/-- From the spec: a single trailing underscore not preceded by another
underscore is removed. -/
def refStrip (k : List Char) : List Char :=
  if k.getLast? = some '_' ∧ k.dropLast.getLast? ≠ some '_' then k.dropLast else k

/-- From the spec: each occurrence of `__` becomes a literal `_`, each
remaining single `_` becomes `-`, and no other character is changed. -/
def urefChars : List Char → List Char
  | [] => []
  | [c] => [if c = '_' then '-' else c]
  | c1 :: c2 :: rest =>
    if c1 = '_' ∧ c2 = '_' then '_' :: urefChars rest
    else (if c1 = '_' then '-' else c1) :: urefChars (c2 :: rest)

/-- Newline count of a serialisation. -/
def countNl (s : String) : Nat :=
  s.data.count '\n'

/-- The keys touched by the class and style normalisation of `transform`. -/
def isAuxKey (k : String) : Bool :=
  k = "classes" ∨ k = "style" ∨ k = "class"

/-! ## Dictionary lemmas -/

section AListLemmas

variable {α : Type}

theorem alistFind_dictRemove_self (k : String) (l : List (String × α)) :
    alistFind k (dictRemove k l) = none := by
  induction l with
  | nil => rfl
  | cons p rest ih =>
    simp only [dictRemove]
    split
    · exact ih
    · simp only [alistFind]
      split
      · simp_all
      · exact ih

theorem alistFind_dictRemove_ne (k k2 : String) (h : k2 ≠ k) (l : List (String × α)) :
    alistFind k2 (dictRemove k l) = alistFind k2 l := by
  induction l with
  | nil => rfl
  | cons p rest ih =>
    obtain ⟨pk, pv⟩ := p
    simp only [dictRemove]
    split
    · next heq => simp only [alistFind]; rw [if_neg (by simp_all [Ne.symm h]), ih]
    · simp only [alistFind]; split <;> simp [ih]

theorem alistFind_dictSet_self (k : String) (v : α) (l : List (String × α)) :
    alistFind k (dictSet k v l) = some v := by
  induction l with
  | nil => simp [dictSet, alistFind]
  | cons p rest ih =>
    simp only [dictSet]
    split
    · simp [alistFind]
    · simp only [alistFind]
      split
      · simp_all
      · exact ih

theorem alistFind_dictSet_ne (k k2 : String) (v : α) (h : k2 ≠ k) (l : List (String × α)) :
    alistFind k2 (dictSet k v l) = alistFind k2 l := by
  induction l with
  | nil => simp [dictSet, alistFind, Ne.symm h]
  | cons p rest ih =>
    simp only [dictSet]
    split
    · next heq =>
      simp only [alistFind]
      rw [if_neg (by simp_all [Ne.symm h]), if_neg (by simp_all [Ne.symm h])]
    · simp only [alistFind]; split <;> simp [ih]

theorem filter_dictRemove (k : String) (pB : String × α → Bool)
    (hk : ∀ v, pB (k, v) = false) (l : List (String × α)) :
    (dictRemove k l).filter pB = l.filter pB := by
  induction l with
  | nil => rfl
  | cons p rest ih =>
    obtain ⟨pk, pv⟩ := p
    simp only [dictRemove]
    split
    · next heq => rw [ih, List.filter_cons, if_neg (by simp_all [hk pv])]
    · simp only [List.filter_cons]; split <;> simp [ih]

theorem filter_dictSet (k : String) (v : α) (pB : String × α → Bool)
    (hk : ∀ v', pB (k, v') = false) (l : List (String × α)) :
    (dictSet k v l).filter pB = l.filter pB := by
  induction l with
  | nil => simp [dictSet, hk v]
  | cons p rest ih =>
    obtain ⟨pk, pv⟩ := p
    simp only [dictSet]
    split
    · next heq =>
      subst heq
      simp only [List.filter_cons, hk pv, hk v]
      simp
    · simp only [List.filter_cons]; split <;> simp [ih]

theorem alistFind_isSome_of_mem {α : Type} (k : String) (v : α) (l : List (String × α))
    (h : (k, v) ∈ l) : (alistFind k l).isSome := by
  induction l with
  | nil => simp at h
  | cons p rest ih =>
    simp only [alistFind]
    split
    · rfl
    · rcases List.mem_cons.mp h with h1 | h2
      · subst h1; simp_all
      · exact ih h2

theorem alistFind_eq_none_of_no_key {α : Type} (K : String) (l : List (String × α))
    (h : ∀ p ∈ l, p.1 ≠ K) : alistFind K l = none := by
  induction l with
  | nil => rfl
  | cons p rest ih =>
    simp only [alistFind]
    rw [if_neg (h p (by simp))]
    exact ih fun q hq => h q (by simp [hq])

theorem mem_dictRemove {α : Type} (k : String) (p : String × α) (l : List (String × α))
    (h : p ∈ dictRemove k l) : p ∈ l ∧ p.1 ≠ k := by
  induction l with
  | nil => simp [dictRemove] at h
  | cons q rest ih =>
    simp only [dictRemove] at h
    split at h
    · exact ⟨List.mem_cons_of_mem _ (ih h).1, (ih h).2⟩
    · rcases List.mem_cons.mp h with h1 | h2
      · subst h1; simp_all
      · exact ⟨List.mem_cons_of_mem _ (ih h2).1, (ih h2).2⟩

theorem mem_dictRemove_of_ne {α : Type} (k : String) (p : String × α) (l : List (String × α))
    (h : p ∈ l) (hne : p.1 ≠ k) : p ∈ dictRemove k l := by
  induction l with
  | nil => simp at h
  | cons q rest ih =>
    simp only [dictRemove]
    rcases List.mem_cons.mp h with h1 | h2
    · subst h1; rw [if_neg hne]; simp
    · split
      · exact ih h2
      · exact List.mem_cons_of_mem _ (ih h2)

theorem mem_dictSet {α : Type} (k : String) (v : α) (p : String × α) (l : List (String × α))
    (h : p ∈ dictSet k v l) : p = (k, v) ∨ p ∈ l := by
  induction l with
  | nil => simp [dictSet] at h; exact Or.inl h
  | cons q rest ih =>
    simp only [dictSet] at h
    split at h
    · rcases List.mem_cons.mp h with h1 | h2
      · exact Or.inl h1
      · exact Or.inr (List.mem_cons_of_mem _ h2)
    · rcases List.mem_cons.mp h with h1 | h2
      · exact Or.inr (by simp [h1])
      · rcases ih h2 with h3 | h4
        · exact Or.inl h3
        · exact Or.inr (List.mem_cons_of_mem _ h4)

theorem mem_dictSet_of_ne {α : Type} (k : String) (v : α) (p : String × α)
    (l : List (String × α)) (h : p ∈ l) (hne : p.1 ≠ k) : p ∈ dictSet k v l := by
  induction l with
  | nil => simp at h
  | cons q rest ih =>
    simp only [dictSet]
    rcases List.mem_cons.mp h with h1 | h2
    · subst h1
      split
      · next hq => exact absurd hq hne
      · simp
    · split
      · exact List.mem_cons_of_mem _ h2
      · exact List.mem_cons_of_mem _ (ih h2)

theorem alistKeys_dictRemove_nodup {α : Type} (k : String) (l : List (String × α))
    (h : (alistKeys l).Nodup) : (alistKeys (dictRemove k l)).Nodup := by
  induction l with
  | nil => simp [dictRemove, alistKeys]
  | cons q rest ih =>
    simp only [alistKeys, List.map_cons, List.nodup_cons] at h
    simp only [dictRemove]
    split
    · exact ih h.2
    · simp only [alistKeys, List.map_cons, List.nodup_cons]
      refine ⟨fun hmem => h.1 ?_, ih h.2⟩
      obtain ⟨p, hp, hpe⟩ := List.mem_map.mp hmem
      exact List.mem_map.mpr ⟨p, (mem_dictRemove _ _ _ hp).1, hpe⟩

theorem alistKeys_dictSet_nodup {α : Type} (k : String) (v : α) (l : List (String × α))
    (h : (alistKeys l).Nodup) : (alistKeys (dictSet k v l)).Nodup := by
  induction l with
  | nil => simp [dictSet, alistKeys]
  | cons q rest ih =>
    simp only [alistKeys, List.map_cons, List.nodup_cons] at h
    simp only [dictSet]
    split
    · next hq =>
      simp only [alistKeys, List.map_cons, List.nodup_cons]
      exact ⟨by rw [← hq]; exact h.1, h.2⟩
    · simp only [alistKeys, List.map_cons, List.nodup_cons]
      refine ⟨fun hmem => ?_, ih h.2⟩
      obtain ⟨p, hp, hpe⟩ := List.mem_map.mp hmem
      rcases mem_dictSet _ _ _ _ hp with h1 | h2
      · subst h1; simp_all
      · exact h.1 (List.mem_map.mpr ⟨p, h2, hpe⟩)

theorem dictSet_eq_append {α : Type} (k : String) (v : α) (l : List (String × α))
    (h : alistFind k l = none) : dictSet k v l = l ++ [(k, v)] := by
  induction l with
  | nil => rfl
  | cons q rest ih =>
    simp only [alistFind] at h
    simp only [dictSet]
    split
    · next hq => rw [hq] at h; simp at h
    · next hq =>
      rw [if_neg hq] at h
      rw [ih h, List.cons_append]

theorem dictRemove_append {α : Type} (k : String) (a b : List (String × α)) :
    dictRemove k (a ++ b) = dictRemove k a ++ dictRemove k b := by
  induction a with
  | nil => rfl
  | cons q rest ih =>
    simp only [List.cons_append, dictRemove]
    split
    · exact ih
    · rw [show rest.append b = rest ++ b from rfl, ih, List.cons_append]

theorem alistFind_append_of_none {α : Type} (k : String) (a b : List (String × α))
    (h : alistFind k a = none) : alistFind k (a ++ b) = alistFind k b := by
  induction a with
  | nil => rfl
  | cons q rest ih =>
    simp only [alistFind] at h ⊢
    split at h
    · simp at h
    · next hq => rw [if_neg hq]; exact ih h

end AListLemmas

/-! ## Lemmas about the stages of `transform` -/

theorem mem_of_styleStage (d1 : List (String × PyVal)) (p : String × PyVal)
    (hp : p ∈ styleStage d1) : p.1 = "style" ∨ (p ∈ d1 ∧ p.1 ≠ "style") := by
  unfold styleStage at hp
  split at hp
  · split at hp
    · rcases mem_dictSet _ _ _ _ hp with h1 | h2
      · exact Or.inl (by rw [h1])
      · exact Or.inr ⟨(mem_dictRemove _ _ _ h2).1, (mem_dictRemove _ _ _ h2).2⟩
    · rcases mem_dictSet _ _ _ _ hp with h1 | h2
      · exact Or.inl (by rw [h1])
      · exact Or.inr ⟨(mem_dictRemove _ _ _ h2).1, (mem_dictRemove _ _ _ h2).2⟩
  · exact Or.inr ⟨(mem_dictRemove _ _ _ hp).1, (mem_dictRemove _ _ _ hp).2⟩

theorem mem_transformState (attrs d : List (String × PyVal)) (p : String × PyVal)
    (h : transformState attrs = some d) (hp : p ∈ attrs) (hk : isAuxKey p.1 = false) : p ∈ d := by
  have hk1 : p.1 ≠ "classes" := by intro e; simp [isAuxKey, e] at hk
  have hk2 : p.1 ≠ "style" := by intro e; simp [isAuxKey, e] at hk
  have hk3 : p.1 ≠ "class" := by intro e; simp [isAuxKey, e] at hk
  obtain ⟨d1, hd1, rfl⟩ : ∃ d1, classStage attrs = some d1 ∧ styleStage d1 = d := by
    unfold transformState at h
    cases hc : classStage attrs with
    | none => rw [hc] at h; simp at h
    | some d1 => rw [hc] at h; simp at h; exact ⟨d1, rfl, h⟩
  have hp1 : p ∈ d1 := by
    unfold classStage at hd1
    split at hd1
    · split at hd1
      · simp only [Option.some.injEq] at hd1
        rw [← hd1]
        exact mem_dictSet_of_ne _ _ _ _ (mem_dictRemove_of_ne _ _ _ hp hk1) hk3
      · simp at hd1
    · simp only [Option.some.injEq] at hd1
      rw [← hd1]
      exact mem_dictRemove_of_ne _ _ _ hp hk1
  unfold styleStage
  split
  · split
    · exact mem_dictSet_of_ne _ _ _ _ (mem_dictRemove_of_ne _ _ _ hp1 hk2) hk2
    · exact mem_dictSet_of_ne _ _ _ _ (mem_dictRemove_of_ne _ _ _ hp1 hk2) hk2
  · exact mem_dictRemove_of_ne _ _ _ hp1 hk2

theorem mem_of_transformState (attrs d : List (String × PyVal)) (p : String × PyVal)
    (h : transformState attrs = some d) (hp : p ∈ d) :
    (p ∈ attrs ∧ p.1 ≠ "classes" ∧ p.1 ≠ "style") ∨ p.1 = "class" ∨ p.1 = "style" := by
  obtain ⟨d1, hd1, rfl⟩ : ∃ d1, classStage attrs = some d1 ∧ styleStage d1 = d := by
    unfold transformState at h
    cases hc : classStage attrs with
    | none => rw [hc] at h; simp at h
    | some d1 => rw [hc] at h; simp at h; exact ⟨d1, rfl, h⟩
  have hstep : p ∈ d1 ∧ p.1 ≠ "style" ∨ p.1 = "style" := by
    unfold styleStage at hp
    split at hp
    · split at hp
      · rcases mem_dictSet _ _ _ _ hp with h1 | h2
        · exact Or.inr (by rw [h1])
        · exact Or.inl ⟨(mem_dictRemove _ _ _ h2).1, (mem_dictRemove _ _ _ h2).2⟩
      · rcases mem_dictSet _ _ _ _ hp with h1 | h2
        · exact Or.inr (by rw [h1])
        · exact Or.inl ⟨(mem_dictRemove _ _ _ h2).1, (mem_dictRemove _ _ _ h2).2⟩
    · exact Or.inl ⟨(mem_dictRemove _ _ _ hp).1, (mem_dictRemove _ _ _ hp).2⟩
  rcases hstep with ⟨hp1, hsty⟩ | hsty
  · unfold classStage at hd1
    split at hd1
    · split at hd1
      · simp only [Option.some.injEq] at hd1
        rw [← hd1] at hp1
        rcases mem_dictSet _ _ _ _ hp1 with h1 | h2
        · exact Or.inr (Or.inl (by rw [h1]))
        · exact Or.inl ⟨(mem_dictRemove _ _ _ h2).1, (mem_dictRemove _ _ _ h2).2, hsty⟩
      · simp at hd1
    · simp only [Option.some.injEq] at hd1
      rw [← hd1] at hp1
      exact Or.inl ⟨(mem_dictRemove _ _ _ hp1).1, (mem_dictRemove _ _ _ hp1).2, hsty⟩
  · exact Or.inr (Or.inr hsty)

theorem nodup_transformState (attrs d : List (String × PyVal))
    (h : transformState attrs = some d) (hnd : (alistKeys attrs).Nodup) :
    (alistKeys d).Nodup := by
  obtain ⟨d1, hd1, rfl⟩ : ∃ d1, classStage attrs = some d1 ∧ styleStage d1 = d := by
    unfold transformState at h
    cases hc : classStage attrs with
    | none => rw [hc] at h; simp at h
    | some d1 => rw [hc] at h; simp at h; exact ⟨d1, rfl, h⟩
  have hnd1 : (alistKeys d1).Nodup := by
    unfold classStage at hd1
    split at hd1
    · split at hd1
      · simp only [Option.some.injEq] at hd1
        rw [← hd1]
        exact alistKeys_dictSet_nodup _ _ _ (alistKeys_dictRemove_nodup _ _ hnd)
      · simp at hd1
    · simp only [Option.some.injEq] at hd1
      rw [← hd1]
      exact alistKeys_dictRemove_nodup _ _ hnd
  unfold styleStage
  split
  · split
    · exact alistKeys_dictSet_nodup _ _ _ (alistKeys_dictRemove_nodup _ _ hnd1)
    · exact alistKeys_dictSet_nodup _ _ _ (alistKeys_dictRemove_nodup _ _ hnd1)
  · exact alistKeys_dictRemove_nodup _ _ hnd1

theorem styleStage_shape (l : List (String × PyVal)) :
    ∃ post, styleStage l = dictRemove "style" l ++ post ∧
      (post = [] ∨ ∃ v, post = [("style", v)]) := by
  unfold styleStage
  split
  · split
    · exact ⟨_, dictSet_eq_append _ _ _ (alistFind_dictRemove_self _ _), Or.inr ⟨_, rfl⟩⟩
    · exact ⟨_, dictSet_eq_append _ _ _ (alistFind_dictRemove_self _ _), Or.inr ⟨_, rfl⟩⟩
  · exact ⟨[], by simp, Or.inl rfl⟩

/-! ## Lemmas about the per-pair loop -/

theorem transformLoop_append (lookup : List (String × PyVal)) (xs ys : List (String × PyVal))
    (acc : List (String × String)) :
    transformLoop lookup (xs ++ ys) acc =
      (transformLoop lookup xs acc).bind fun acc2 => transformLoop lookup ys acc2 := by
  induction xs generalizing acc with
  | nil => simp [transformLoop]
  | cons p rest ih =>
    obtain ⟨k, v⟩ := p
    simp only [List.cons_append, transformLoop]
    split
    · exact ih acc
    · cases hev : encodeValue v with
      | none => simp
      | some ev =>
        cases hnk : normaliseKey k with
        | none => simp
        | some nk => simp only []; exact ih _

theorem transformLoop_find_frame (lookup : List (String × PyVal)) (K : String)
    (items : List (String × PyVal)) (acc out : List (String × String))
    (h : transformLoop lookup items acc = some out)
    (hno : ∀ p ∈ items,
      (colourCandidate p.1 ≠ p.1 ∧ (alistFind (colourCandidate p.1) lookup).isSome) ∨
      normaliseKey p.1 ≠ some K) :
    alistFind K out = alistFind K acc := by
  induction items generalizing acc with
  | nil => simp only [transformLoop, Option.some.injEq] at h; rw [h]
  | cons p rest ih =>
    obtain ⟨k, v⟩ := p
    simp only [transformLoop] at h
    split at h
    · exact ih _ h fun q hq => hno q (by simp [hq])
    · next hskip =>
      cases hev : encodeValue v with
      | none => rw [hev] at h; simp at h
      | some ev =>
        cases hnk : normaliseKey k with
        | none => rw [hev, hnk] at h; simp at h
        | some nk =>
          rw [hev, hnk] at h
          simp only [] at h
          have hwr : nk ≠ K := by
            rcases hno (k, v) (by simp) with h1 | h2
            · exact absurd h1 hskip
            · intro e; rw [e] at hnk; exact h2 hnk
          rw [ih _ h fun q hq => hno q (by simp [hq]), alistFind_dictSet_ne _ _ _ (Ne.symm hwr)]

theorem transformLoop_step_skip (lookup : List (String × PyVal)) (k : String) (v : PyVal)
    (rest : List (String × PyVal)) (acc : List (String × String))
    (hskip : colourCandidate k ≠ k ∧ (alistFind (colourCandidate k) lookup).isSome) :
    transformLoop lookup ((k, v) :: rest) acc = transformLoop lookup rest acc := by
  simp only [transformLoop, if_pos hskip]

theorem transformLoop_step_write (lookup : List (String × PyVal)) (k : String) (v : PyVal)
    (rest : List (String × PyVal)) (acc : List (String × String)) (ev nk : String)
    (hskip : ¬(colourCandidate k ≠ k ∧ (alistFind (colourCandidate k) lookup).isSome))
    (hev : encodeValue v = some ev) (hnk : normaliseKey k = some nk) :
    transformLoop lookup ((k, v) :: rest) acc = transformLoop lookup rest (dictSet nk ev acc) := by
  simp only [transformLoop, if_neg hskip, hev, hnk]

/-! ## Removing a dropped key from the input commutes with `transform` -/

theorem dictRemove_comm {α : Type} (k1 k2 : String) (l : List (String × α)) :
    dictRemove k1 (dictRemove k2 l) = dictRemove k2 (dictRemove k1 l) := by
  induction l with
  | nil => rfl
  | cons q rest ih =>
    simp only [dictRemove]
    by_cases h1 : q.1 = k1 <;> by_cases h2 : q.1 = k2
    · rw [if_pos h1, if_pos h2, ih]
    · rw [if_neg h2, if_pos h1,
        show dictRemove k1 (q :: dictRemove k2 rest) = dictRemove k1 (dictRemove k2 rest) from by
          simp [dictRemove, h1],
        ih]
    · rw [if_pos h2, if_neg h1,
        show dictRemove k2 (q :: dictRemove k1 rest) = dictRemove k2 (dictRemove k1 rest) from by
          simp [dictRemove, h2],
        ih]
    · rw [if_neg h2, if_neg h1,
        show dictRemove k1 (q :: dictRemove k2 rest) = q :: dictRemove k1 (dictRemove k2 rest)
          from by simp [dictRemove, h1],
        show dictRemove k2 (q :: dictRemove k1 rest) = q :: dictRemove k2 (dictRemove k1 rest)
          from by simp [dictRemove, h2],
        ih]

theorem dictRemove_dictSet_comm {α : Type} (k k2 : String) (v : α) (hne : k2 ≠ k)
    (l : List (String × α)) :
    dictRemove k (dictSet k2 v l) = dictSet k2 v (dictRemove k l) := by
  induction l with
  | nil => simp [dictSet, dictRemove, hne]
  | cons q rest ih =>
    by_cases h1 : q.1 = k2 <;> by_cases h2 : q.1 = k <;>
      simp_all [dictSet, dictRemove, hne]

theorem classStage_erase (attrs d1 : List (String × PyVal)) (k : String)
    (hk1 : k ≠ "classes") (hk3 : k ≠ "class")
    (h : classStage attrs = some d1) :
    classStage (dictRemove k attrs) = some (dictRemove k d1) := by
  unfold classStage at h ⊢
  rw [alistFind_dictRemove_ne k "classes" (Ne.symm hk1) attrs]
  split at h
  · next ht =>
    rw [if_pos ht]
    split at h
    · next cs heq =>
      simp only [Option.some.injEq] at h
      rw [← h]
      simp only [Option.some.injEq]
      rw [dictRemove_dictSet_comm k "class" _ (Ne.symm hk3), dictRemove_comm k "classes" attrs]
    · simp at h
  · next ht =>
    rw [if_neg ht]
    simp only [Option.some.injEq] at h
    rw [← h]
    simp only [Option.some.injEq]
    exact (dictRemove_comm k "classes" attrs).symm

theorem styleStage_erase (l : List (String × PyVal)) (k : String) (hk : k ≠ "style") :
    styleStage (dictRemove k l) = dictRemove k (styleStage l) := by
  unfold styleStage
  rw [alistFind_dictRemove_ne k "style" (Ne.symm hk) l]
  cases ht : truthy ((alistFind "style" l).getD (PyVal.str "")) with
  | false =>
    simp only [Bool.false_eq_true, if_false]
    exact dictRemove_comm "style" k l
  | true =>
    rw [if_pos rfl, if_pos rfl]
    cases hv : (alistFind "style" l).getD (PyVal.str "") <;>
      rw [dictRemove_dictSet_comm k "style" _ (Ne.symm hk), dictRemove_comm k "style" l]

theorem transformState_erase (attrs d : List (String × PyVal)) (k : String)
    (hk1 : k ≠ "classes") (hk2 : k ≠ "style") (hk3 : k ≠ "class")
    (h : transformState attrs = some d) :
    transformState (dictRemove k attrs) = some (dictRemove k d) := by
  obtain ⟨d1, hd1, hsty⟩ : ∃ d1, classStage attrs = some d1 ∧ styleStage d1 = d := by
    unfold transformState at h
    cases hc : classStage attrs with
    | none => rw [hc] at h; simp at h
    | some d1 => rw [hc] at h; simp at h; exact ⟨d1, rfl, h⟩
  unfold transformState
  rw [classStage_erase attrs d1 k hk1 hk3 hd1]
  simp only [Option.map_some', Option.some.injEq]
  rw [styleStage_erase d1 k hk2, hsty]

theorem transformLoop_erase_skipped (lookup : List (String × PyVal)) (k : String)
    (hskip : colourCandidate k ≠ k ∧ (alistFind (colourCandidate k) lookup).isSome)
    (items : List (String × PyVal)) (acc : List (String × String)) :
    transformLoop lookup items acc = transformLoop lookup (dictRemove k items) acc := by
  induction items generalizing acc with
  | nil => rfl
  | cons p rest ih =>
    obtain ⟨k1, v1⟩ := p
    by_cases hk1 : k1 = k
    · subst hk1
      rw [show dictRemove k1 ((k1, v1) :: rest) = dictRemove k1 rest from by simp [dictRemove]]
      rw [transformLoop_step_skip _ _ _ _ _ hskip]
      exact ih acc
    · rw [show dictRemove k ((k1, v1) :: rest) = (k1, v1) :: dictRemove k rest from by
        simp [dictRemove, hk1]]
      simp only [transformLoop]
      split
      · exact ih acc
      · cases hev : encodeValue v1 with
        | none => cases hnk : normaliseKey k1 <;> simp
        | some ev =>
          cases hnk : normaliseKey k1 with
          | none => simp
          | some nk => simp only []; exact ih _

theorem transformLoop_lookup_erase (lookup : List (String × PyVal)) (k : String)
    (items : List (String × PyVal)) (acc : List (String × String))
    (hno : ∀ p ∈ items, colourCandidate p.1 ≠ k) :
    transformLoop (dictRemove k lookup) items acc = transformLoop lookup items acc := by
  induction items generalizing acc with
  | nil => rfl
  | cons p rest ih =>
    obtain ⟨k1, v1⟩ := p
    have hc1 : colourCandidate k1 ≠ k := hno (k1, v1) (by simp)
    have hfind : alistFind (colourCandidate k1) (dictRemove k lookup) =
        alistFind (colourCandidate k1) lookup := alistFind_dictRemove_ne k _ hc1 lookup
    simp only [transformLoop, hfind]
    split
    · exact ih _ (fun q hq => hno q (by simp [hq]))
    · cases hev : encodeValue v1 with
      | none => cases hnk : normaliseKey k1 <;> simp
      | some ev =>
        cases hnk : normaliseKey k1 with
        | none => simp
        | some nk => simp only []; exact ih _ (fun q hq => hno q (by simp [hq]))

/-! ## Lemmas about `splitlines`, `pyIndent` and newline counting -/

theorem splitlines_flatten (s : List Char) : (splitlines s).flatten = s := by
  induction s using splitlines.induct with
  | case1 => rfl
  | case2 c => rfl
  | case3 c1 c2 rest h ih =>
    obtain ⟨rfl, rfl⟩ := h
    simp only [splitlines, if_pos (⟨rfl, rfl⟩ : ('\r' : Char) = '\r' ∧ ('\n' : Char) = '\n')]
    simp [ih]
  | case4 c1 c2 rest h1 h2 ih =>
    simp only [splitlines, if_neg h1, if_pos h2]
    simp [ih]
  | case5 c1 c2 rest h1 h2 hsp ih =>
    rw [hsp] at ih
    simp at ih
  | case6 c1 c2 rest h1 h2 l ls h6 ih =>
    simp only [splitlines, if_neg h1, if_neg h2, h6]
    rw [h6] at ih
    simp only [List.flatten_cons] at ih ⊢
    simp [ih]

theorem pyIndent_not_apply (pfx t : String) : pyIndent pfx false t = t := by
  unfold pyIndent
  simp [splitlines_flatten]

theorem splitlines_noboundary (s : List Char) (hne : s ≠ [])
    (hb : ∀ c ∈ s, ¬isLineBoundary c = true) : splitlines s = [s] := by
  induction s using splitlines.induct with
  | case1 => exact absurd rfl hne
  | case2 c => rfl
  | case3 c1 c2 rest h ih =>
    exact absurd (by rw [h.1]; decide) (hb c1 (by simp))
  | case4 c1 c2 rest h1 h2 ih =>
    exact absurd h2 (hb c1 (by simp))
  | case5 c1 c2 rest h1 h2 hsp ih =>
    rw [ih (by simp) (fun c hc => hb c (by simp [hc]))] at hsp
    simp at hsp
  | case6 c1 c2 rest h1 h2 l ls h6 ih =>
    have ihr := ih (by simp) (fun c hc => hb c (by simp [hc]))
    rw [h6] at ihr
    obtain ⟨rfl, rfl⟩ : l = c2 :: rest ∧ ls = [] := by
      constructor
      · injection ihr
      · have := congrArg List.length ihr
        simp at this
        exact this
    simp only [splitlines, if_neg h1, if_neg h2, h6]

theorem splitlines_cons_line (a t : List Char) (hb : ∀ c ∈ a, ¬isLineBoundary c = true) :
    splitlines (a ++ '\n' :: t) = (a ++ ['\n']) :: splitlines t := by
  induction a with
  | nil =>
    simp only [List.nil_append]
    cases t with
    | nil => rfl
    | cons c2 t' =>
      simp only [splitlines]
      rw [if_neg (fun hcc => by exact absurd hcc.1 (by decide)),
        if_pos (by decide : isLineBoundary '\n' = true)]
  | cons a1 a' ih =>
    have hb1 : ¬isLineBoundary a1 = true := hb a1 (by simp)
    have hb' : ∀ c ∈ a', ¬isLineBoundary c = true := fun c hc => hb c (by simp [hc])
    cases hx : a' ++ '\n' :: t with
    | nil => simp at hx
    | cons x xs =>
      rw [List.cons_append, hx]
      simp only [splitlines]
      rw [if_neg (fun hcc => hb1 (by rw [hcc.1]; decide)), if_neg hb1]
      rw [← hx, ih hb']
      simp only [List.cons_append]

theorem countNl_append (a b : String) : countNl (a ++ b) = countNl a + countNl b := by
  unfold countNl
  rw [String.data_append, List.count_append]

theorem countNl_eq_zero (s : String) (h : '\n' ∉ s.data) : countNl s = 0 :=
  List.count_eq_zero.mpr h

theorem countNl_joinSep_empty (ls : List String) (h : ∀ l ∈ ls, countNl l = 0) :
    countNl (joinSep "" ls) = 0 := by
  induction ls with
  | nil => rfl
  | cons s rest ih =>
    cases rest with
    | nil => exact h s (by simp)
    | cons t r =>
      rw [show joinSep "" (s :: t :: r) = s ++ "" ++ joinSep "" (t :: r) from rfl]
      rw [countNl_append, countNl_append, h s (by simp), ih (fun l hl => h l (by simp [hl]))]
      rfl

theorem countNl_joinSep_nl (ls : List String) (hne : ls ≠ []) (h : ∀ l ∈ ls, countNl l = 0) :
    countNl (joinSep "\n" ls) + 1 = ls.length := by
  induction ls with
  | nil => exact absurd rfl hne
  | cons s rest ih =>
    cases rest with
    | nil => simp [joinSep, h s (by simp)]
    | cons t r =>
      rw [show joinSep "\n" (s :: t :: r) = s ++ "\n" ++ joinSep "\n" (t :: r) from rfl]
      rw [countNl_append, countNl_append, h s (by simp)]
      have ihr := ih (by simp) (fun l hl => h l (by simp [hl]))
      have hn : countNl "\n" = 1 := rfl
      simp only [List.length_cons] at ihr ⊢
      omega

theorem serialiseList_eq_map (cs : List Elem) (m : Bool) :
    serialiseList cs m = cs.map (serialise · m) := by
  induction cs with
  | nil => rfl
  | cons e es ih => simp only [serialiseList, List.map_cons, ih]

theorem pyIndent_data (pfx t : String) :
    (pyIndent pfx true t).data = ((splitlines t.data).map (pfx.data ++ ·)).flatten := by
  unfold pyIndent
  simp

theorem data_ne_nil (s : String) (h : s ≠ "") : s.data ≠ [] := by
  intro e
  exact h (String.ext (by simp [e]))

theorem pyIndent_joinSep (pfx : String) (ls : List String) (hne : ls ≠ [])
    (h : ∀ l ∈ ls, l ≠ "" ∧ ∀ c ∈ l.data, ¬isLineBoundary c = true) :
    pyIndent pfx true (joinSep "\n" ls) = joinSep "\n" (ls.map (pfx ++ ·)) := by
  induction ls with
  | nil => exact absurd rfl hne
  | cons s rest ih =>
    cases rest with
    | nil =>
      obtain ⟨hs, hbs⟩ := h s (by simp)
      apply String.ext
      rw [pyIndent_data]
      rw [show joinSep "\n" [s] = s from rfl]
      rw [splitlines_noboundary s.data (data_ne_nil s hs) hbs]
      simp only [List.map_cons, List.map_nil, List.flatten_cons, List.flatten_nil,
        List.append_nil]
      rw [show joinSep "\n" [pfx ++ s] = pfx ++ s from rfl, String.data_append]
    | cons t r =>
      obtain ⟨hs, hbs⟩ := h s (by simp)
      have ihr := ih (by simp) (fun l hl => h l (by simp [hl]))
      apply String.ext
      rw [pyIndent_data]
      have hdata : (joinSep "\n" (s :: t :: r)).data =
          s.data ++ '\n' :: (joinSep "\n" (t :: r)).data := by
        rw [show joinSep "\n" (s :: t :: r) = s ++ "\n" ++ joinSep "\n" (t :: r) from rfl]
        rw [String.data_append, String.data_append]
        simp
      rw [hdata, splitlines_cons_line _ _ hbs]
      simp only [List.map_cons, List.flatten_cons]
      have hrdata : ((splitlines (joinSep "\n" (t :: r)).data).map (pfx.data ++ ·)).flatten =
          (joinSep "\n" ((t :: r).map (pfx ++ ·))).data := by
        rw [← pyIndent_data, ihr]
      rw [hrdata]
      have hmap : List.map (fun x => pfx ++ x) (t :: r) =
          (pfx ++ t) :: List.map (fun x => pfx ++ x) r := List.map_cons _ _ _
      rw [hmap]
      rw [show joinSep "\n" ((pfx ++ s) :: (pfx ++ t) :: List.map (fun x => pfx ++ x) r) =
        (pfx ++ s) ++ "\n" ++ joinSep "\n" ((pfx ++ t) :: List.map (fun x => pfx ++ x) r)
        from rfl]
      simp [String.data_append]

/-! ## Claim theorems -/

/-- C2, counterexample: serialising `Void(tag="img", attributes={"src": "a.png"})`
does not produce the claimed text `<img src="&quot;a.png&quot;" />` (the value
contains no literal quote, so only the outer JSON quotes are added). -/
theorem C2_counterexample :
    (mkVoid "img" [("src", PyVal.str "a.png")]).map (serialise · true) ≠
      some "<img src=\"&quot;a.png&quot;\" />" := by decide

/-- C2, amended: serialising the node constructed as
`Void(tag="img", attributes={"src": "a.png"})` yields exactly
`<img src="a.png" />` in both minified and pretty mode (a string value is
JSON-quoted once; `&quot;` only replaces literal `"` characters in the value). -/
theorem C2_voidImgSerialisation :
    (mkVoid "img" [("src", PyVal.str "a.png")]).map (serialise · true) =
      some "<img src=\"a.png\" />" ∧
    (mkVoid "img" [("src", PyVal.str "a.png")]).map (serialise · false) =
      some "<img src=\"a.png\" />" := by
  exact ⟨by decide, by decide⟩

/-- C3: calling `serialise` with no argument raises `TypeError` for a `Group`
(`ElementGroup.serialise` declares `minify` without a default, line 254), while
the four other shapes return the minified output. The claim that the no-argument
call succeeds for every shape is right about the intended contract (the abstract
`Element.serialise` declares `minify: bool = True`) and wrong about the code. -/
theorem C3_groupSerialiseNoArgFails :
    serialiseNoArg (.group [.text "x"]) =
      .error (.typeError "serialise() missing 1 required positional argument: 'minify'") ∧
    serialiseNoArg (.text "x") = .ok (serialise (.text "x") true) ∧
    serialiseNoArg (.container "div" [] [.text "x"]) =
      .ok (serialise (.container "div" [] [.text "x"]) true) ∧
    serialiseNoArg (.void "br" []) = .ok (serialise (.void "br" []) true) ∧
    serialiseNoArg (.component (.text "x")) = .ok (serialise (.component (.text "x")) true) :=
  ⟨rfl, rfl, rfl, rfl, rfl⟩

/-- C5: the typed content-arity `TypeError` is raised only for a too-long
content list, or for a non-string first item on a content reset. A Text node
constructed with zero items fails with `IndexError` (the code subscripts
`content[0]` before checking the length, line 123), and one constructed with a
single non-string item fails with `AttributeError` (the error message formats
`type(self.content)` before the slot is set, line 126). A single string
succeeds. -/
theorem C5_textSetContentBehaviour :
    textSetContent none [] = .error (.indexError "list index out of range") ∧
    textSetContent none [.elem (.void "br" [])] =
      .error (.attributeError "'TextElement' object has no attribute 'content'") ∧
    textSetContent (some "old") [.elem (.void "br" [])] =
      .error (.typeError "Text content must be a single string (got 'str')") ∧
    textSetContent none [.str "a", .str "b"] =
      .error (.typeError "Text content must be a single string (got 2 items)") ∧
    textSetContent none [.str "a"] = .ok "a" :=
  ⟨rfl, rfl, rfl, rfl, rfl⟩

/-- C10: string conversion (`Element.__str__`, lines 110-111) is the pretty,
non-minified serialisation for every shape, and this differs from the minified
default, witnessed on `Container(tag="div", content=["hi"])`. -/
theorem C10_strIsPrettySerialisation :
    (∀ e : Elem, strConv e = serialise e false) ∧
    strConv (.container "div" [] [.text "hi"]) ≠
      serialise (.container "div" [] [.text "hi"]) true :=
  ⟨fun _ => rfl, by decide⟩

/-- C1, counterexample: `transform` does mutate its input. For the input
mapping `{"classes": {"a"}}` the input ends up as `{"class": "a"}`: the
original `classes` entry is gone and a `class` entry has been gained. -/
theorem C1_counterexample :
    transformState [("classes", PyVal.strSet ["a"])] = some [("class", PyVal.str "a")] ∧
    alistFind "classes" [("class", PyVal.str "a")] = none ∧
    (alistFind "class" [("class", PyVal.str "a")]).isSome = true := by
  exact ⟨by decide, by decide, by decide⟩

/-- C1, amended: `transform` returns a fresh mapping but mutates its input by
the class and style normalisation alone. This theorem states the frame: every
input entry whose key is none of `classes`, `style`, `class` is left exactly
in place, and the `classes` entry itself is always removed. -/
theorem C1_transformInputMutationFrame (attrs d : List (String × PyVal))
    (h : transformState attrs = some d) :
    d.filter (fun p => !isAuxKey p.1) = attrs.filter (fun p => !isAuxKey p.1) ∧
    alistFind "classes" d = none := by
  have hclass : ∀ v : PyVal, (fun p : String × PyVal => !isAuxKey p.1) ("class", v) = false := by
    intro v; simp [isAuxKey]
  have hclasses : ∀ v : PyVal, (fun p : String × PyVal => !isAuxKey p.1) ("classes", v) = false := by
    intro v; simp [isAuxKey]
  have hstyle : ∀ v : PyVal, (fun p : String × PyVal => !isAuxKey p.1) ("style", v) = false := by
    intro v; simp [isAuxKey]
  obtain ⟨d1, hd1, rfl⟩ : ∃ d1, classStage attrs = some d1 ∧ styleStage d1 = d := by
    unfold transformState at h
    cases hc : classStage attrs with
    | none => rw [hc] at h; simp at h
    | some d1 => rw [hc] at h; simp at h; exact ⟨d1, rfl, h⟩
  have hfil1 : d1.filter (fun p => !isAuxKey p.1) = attrs.filter (fun p => !isAuxKey p.1) := by
    unfold classStage at hd1
    split at hd1
    · split at hd1
      · next cs heq =>
        simp only [Option.some.injEq] at hd1
        rw [← hd1, filter_dictSet _ _ _ hclass, filter_dictRemove _ _ hclasses]
      · simp at hd1
    · simp only [Option.some.injEq] at hd1
      rw [← hd1, filter_dictRemove _ _ hclasses]
  have hfind1 : alistFind "classes" d1 = none := by
    unfold classStage at hd1
    split at hd1
    · split at hd1
      · next cs heq =>
        simp only [Option.some.injEq] at hd1
        rw [← hd1, alistFind_dictSet_ne _ _ _ (by decide), alistFind_dictRemove_self]
      · simp at hd1
    · simp only [Option.some.injEq] at hd1
      rw [← hd1, alistFind_dictRemove_self]
  constructor
  · rw [← hfil1]
    unfold styleStage
    split
    · split
      · rw [filter_dictSet _ _ _ hstyle, filter_dictRemove _ _ hstyle]
      · rw [filter_dictSet _ _ _ hstyle, filter_dictRemove _ _ hstyle]
    · rw [filter_dictRemove _ _ hstyle]
  · rw [← hfind1]
    unfold styleStage
    split
    · split
      · rw [alistFind_dictSet_ne _ _ _ (by decide), alistFind_dictRemove_ne _ _ (by decide)]
      · rw [alistFind_dictSet_ne _ _ _ (by decide), alistFind_dictRemove_ne _ _ (by decide)]
    · rw [alistFind_dictRemove_ne _ _ (by decide)]

/-- C1, witness: the mutation frame evaluated on
`{"id": "x", "classes": {"a"}, "style": "s"}`. -/
theorem C1_witness :
    transformState [("id", PyVal.str "x"), ("classes", PyVal.strSet ["a"]),
        ("style", PyVal.str "s")] =
      some [("id", PyVal.str "x"), ("class", PyVal.str "a"), ("style", PyVal.str "s")] ∧
    ([("id", PyVal.str "x"), ("class", PyVal.str "a"),
        ("style", PyVal.str "s")].filter (fun p => !isAuxKey p.1) =
      [("id", PyVal.str "x"), ("classes", PyVal.strSet ["a"]),
        ("style", PyVal.str "s")].filter (fun p => !isAuxKey p.1) ∧
     alistFind "classes" [("id", PyVal.str "x"), ("class", PyVal.str "a"),
        ("style", PyVal.str "s")] = none) :=
  ⟨by decide, C1_transformInputMutationFrame _ _ (by decide)⟩

/-- C4, counterexample: for `classes={""}` a `class` key does appear in the
output (the truthiness test `if classes:` runs before the empty string is
removed), with the JSON-encoded empty string as its value. -/
theorem C4_counterexample :
    transform [("classes", PyVal.strSet [""])] = some [("class", "\"\"")] ∧
    (alistFind "class" [("class", ("\"\"" : String))]).isSome = true := by
  exact ⟨by decide, by decide⟩

/-- C4, amended: for every attribute mapping with a `classes` entry on which
`transform` succeeds and in which no other key normalises to `class`, the
output contains a `class` key iff the `classes` set is non-empty (the
truthiness test runs before the empty string is removed, so `classes={""}`
also produces a `class` key), and the value under `class` is the encoded
space-join of the set minus the empty string. -/
theorem C4_classAttributeRule (attrs : List (String × PyVal)) (out : List (String × String))
    (cs : List String)
    (hfind : alistFind "classes" attrs = some (.strSet cs))
    (honly : ∀ p ∈ attrs, p.1 ≠ "classes" → normaliseKey p.1 ≠ some "class")
    (hout : transform attrs = some out) :
    ((alistFind "class" out).isSome ↔ cs ≠ []) ∧
    (cs ≠ [] → alistFind "class" out =
      some (pyJsonStr ⟨replaceQuot (joinSep " " (cs.filter fun c => c ≠ "")).data⟩)) := by
  obtain ⟨d4, hst, hloop⟩ :
      ∃ d4, transformState attrs = some d4 ∧ transformLoop d4 d4 [] = some out := by
    unfold transform at hout
    cases hs : transformState attrs with
    | none => rw [hs] at hout; simp at hout
    | some d4 => rw [hs] at hout; simp at hout; exact ⟨d4, rfl, hout⟩
  have hnoclass : ∀ p ∈ attrs, p.1 ≠ "class" := by
    intro p hp e
    by_cases hc : p.1 = "classes"
    · rw [e] at hc; exact absurd hc (by decide)
    · exact honly p hp hc (by rw [e]; rfl)
  by_cases hcs : cs = []
  · subst hcs
    have hd1 : classStage attrs = some (dictRemove "classes" attrs) := by
      unfold classStage
      rw [hfind]
      simp [truthy]
    have hd4 : d4 = styleStage (dictRemove "classes" attrs) := by
      unfold transformState at hst
      rw [hd1] at hst
      simp only [Option.map_some', Option.some.injEq] at hst
      exact hst.symm
    have hnone : alistFind "class" out = alistFind "class" ([] : List (String × String)) := by
      apply transformLoop_find_frame d4 "class" d4 [] out hloop
      intro p hp
      rw [hd4] at hp
      rcases mem_of_styleStage _ _ hp with hsty | ⟨hp1, _⟩
      · right; rw [hsty]; decide
      · have hmem := mem_dictRemove _ _ _ hp1
        right; exact honly p hmem.1 hmem.2
    rw [hnone]
    constructor
    · simp [alistFind]
    · intro h; exact absurd rfl h
  · have htr : truthy (.strSet cs) = true := by simp [truthy, hcs]
    have hd1 : classStage attrs =
        some (dictSet "class" (.str (joinSep " " (cs.filter fun c => c ≠ "")))
          (dictRemove "classes" attrs)) := by
      unfold classStage
      rw [hfind]
      simp only [Option.getD_some]
      rw [if_pos htr]
    have hA0 : alistFind "class" (dictRemove "classes" attrs) = none :=
      alistFind_eq_none_of_no_key _ _ fun p hp => hnoclass p (mem_dictRemove _ _ _ hp).1
    obtain ⟨post, hshape, hpost⟩ :=
      styleStage_shape (dictSet "class" (.str (joinSep " " (cs.filter fun c => c ≠ "")))
        (dictRemove "classes" attrs))
    have hd4 : d4 = dictRemove "style" (dictRemove "classes" attrs) ++
        ("class", PyVal.str (joinSep " " (cs.filter fun c => c ≠ ""))) :: post := by
      have hd4' : d4 = styleStage (dictSet "class"
          (.str (joinSep " " (cs.filter fun c => c ≠ ""))) (dictRemove "classes" attrs)) := by
        unfold transformState at hst
        rw [hd1] at hst
        simp only [Option.map_some', Option.some.injEq] at hst
        exact hst.symm
      rw [hd4', hshape, dictSet_eq_append _ _ _ hA0, dictRemove_append]
      have hsingle : dictRemove "style"
          [("class", PyVal.str (joinSep " " (cs.filter fun c => c ≠ "")))] =
          [("class", PyVal.str (joinSep " " (cs.filter fun c => c ≠ "")))] := by
        simp [dictRemove]
      rw [hsingle, List.append_assoc, List.singleton_append]
    rw [hd4] at hloop
    rw [transformLoop_append] at hloop
    cases h1 : transformLoop (dictRemove "style" (dictRemove "classes" attrs) ++
        ("class", PyVal.str (joinSep " " (cs.filter fun c => c ≠ ""))) :: post)
        (dictRemove "style" (dictRemove "classes" attrs)) [] with
    | none => rw [h1] at hloop; simp at hloop
    | some acc1 =>
      rw [h1] at hloop
      simp only [Option.some_bind] at hloop
      rw [transformLoop_step_write _ "class" (PyVal.str (joinSep " " (cs.filter fun c => c ≠ "")))
        post acc1
        (pyJsonStr ⟨replaceQuot (joinSep " " (cs.filter fun c => c ≠ "")).data⟩) "class"
        (fun hsk => hsk.1 rfl) rfl rfl] at hloop
      have hfinal : alistFind "class" out = alistFind "class"
          (dictSet "class" (pyJsonStr ⟨replaceQuot (joinSep " " (cs.filter fun c => c ≠ "")).data⟩)
            acc1) := by
        apply transformLoop_find_frame _ "class" post _ out hloop
        intro p hp
        rcases hpost with hnil | ⟨v, hv⟩
        · rw [hnil] at hp; simp at hp
        · rw [hv] at hp
          simp only [List.mem_singleton] at hp
          right; rw [hp]
          exact (by decide : normaliseKey "style" ≠ some "class")
      rw [hfinal, alistFind_dictSet_self]
      exact ⟨by simp [hcs], fun _ => rfl⟩

/-- C4, witness: the class rule evaluated on `{"id": "x", "classes": {"a", ""}}`. -/
theorem C4_witness :
    (alistFind "classes" [("id", PyVal.str "x"), ("classes", PyVal.strSet ["a", ""])] =
        some (PyVal.strSet ["a", ""]) ∧
      transform [("id", PyVal.str "x"), ("classes", PyVal.strSet ["a", ""])] =
        some [("id", "\"x\""), ("class", "\"a\"")]) ∧
    (((alistFind "class" [("id", "\"x\""), ("class", ("\"a\"" : String))]).isSome ↔
        (["a", ""] : List String) ≠ []) ∧
      ((["a", ""] : List String) ≠ [] →
        alistFind "class" [("id", "\"x\""), ("class", ("\"a\"" : String))] =
          some (pyJsonStr ⟨replaceQuot (joinSep " " ((["a", ""] : List String).filter
            fun c => c ≠ "")).data⟩))) :=
  ⟨⟨by decide, by decide⟩,
    C4_classAttributeRule [("id", PyVal.str "x"), ("classes", PyVal.strSet ["a", ""])]
      [("id", "\"x\""), ("class", "\"a\"")] ["a", ""] (by decide) (by decide) (by decide)⟩

/-- C6, counterexample: for the key pair `color`/`colour` the surviving value
appears under the output key `color`, which does not end in `-color` (there is
no hyphenation for a key without underscores). -/
theorem C6_counterexample :
    transform [("color", PyVal.int 1), ("colour", PyVal.int 2)] = some [("color", "\"2\"")] ∧
    List.isSuffixOf "-color".data "color".data = false := by
  exact ⟨by decide, by decide⟩

/-- C8, counterexample: the underscore stage changes characters other than
underscores. For the key `"a b"` (no underscores at all, so the claimed net
effect would leave it unchanged) the space is turned into an underscore by the
`replace(" ", "_")` placeholder resolution. -/
theorem C8_counterexample :
    underscoreStage "a b".data = some "a_b".data ∧
    underscoreStage "a b".data ≠ some (urefChars (refStrip "a b".data)) := by
  exact ⟨by decide, by decide⟩

/-- C6, amended: for every mapping (without duplicate keys) containing both a
key `k` and its colour candidate `kc = k.replace("color", "colour")` with
`k ≠ kc` and `k` not a literal `data-` key (and no key whose colour candidate
is `k` itself, no third key normalising to the colour key's normalised form):
no entry derived from `k` appears in the output — the transform of the mapping
equals the transform of the mapping with `k`'s entry removed — and the
colour-spelled key's value appears under the colour key's normalisation `nk`,
which ends in `-color` only when the key is hyphenated and renamed, not in
general (see the counterexample), and is not renamed at all when it starts
with `data-` after hyphenation. -/
theorem C6_colourPrecedenceRule
    (attrs : List (String × PyVal)) (out : List (String × String))
    (k kc nk : String) (v vc : PyVal) (ev : String)
    (hnd : (alistKeys attrs).Nodup)
    (hk : (k, v) ∈ attrs)
    (hkc : (kc, vc) ∈ attrs)
    (hcand : colourCandidate k = kc)
    (hne : k ≠ kc)
    (hcandc : colourCandidate kc = kc)
    (haux : isAuxKey kc = false)
    (hnk : normaliseKey kc = some nk)
    (hev : encodeValue vc = some ev)
    (hnkclass : nk ≠ "class") (hnkstyle : nk ≠ "style")
    (honly : ∀ p ∈ attrs, p.1 ≠ kc → p.1 = k ∨ normaliseKey p.1 ≠ some nk)
    (hnocand : ∀ p ∈ attrs, colourCandidate p.1 ≠ k)
    (hout : transform attrs = some out) :
    transform (dictRemove k attrs) = some out ∧ alistFind nk out = some ev := by
  obtain ⟨d4, hst, hloop⟩ :
      ∃ d4, transformState attrs = some d4 ∧ transformLoop d4 d4 [] = some out := by
    unfold transform at hout
    cases hs : transformState attrs with
    | none => rw [hs] at hout; simp at hout
    | some d4 => rw [hs] at hout; simp at hout; exact ⟨d4, rfl, hout⟩
  have hkc4 : (kc, vc) ∈ d4 := mem_transformState _ _ _ hst hkc haux
  have hlookup : (alistFind (colourCandidate k) d4).isSome := by
    rw [hcand]; exact alistFind_isSome_of_mem _ _ _ hkc4
  have hskipk : colourCandidate k ≠ k ∧ (alistFind (colourCandidate k) d4).isSome :=
    ⟨by rw [hcand]; exact Ne.symm hne, hlookup⟩
  have hnd4 : (alistKeys d4).Nodup := nodup_transformState _ _ hst hnd
  have hkaux : k ≠ "classes" ∧ k ≠ "style" ∧ k ≠ "class" := by
    refine ⟨?_, ?_, ?_⟩
    · rintro rfl
      exact hne (by rw [← hcand]; decide)
    · rintro rfl
      exact hne (by rw [← hcand]; decide)
    · rintro rfl
      exact hne (by rw [← hcand]; decide)
  constructor
  · -- no entry derived from k: removing k from the input leaves the output unchanged
    have hst' : transformState (dictRemove k attrs) = some (dictRemove k d4) :=
      transformState_erase attrs d4 k hkaux.1 hkaux.2.1 hkaux.2.2 hst
    unfold transform
    rw [hst']
    show transformLoop (dictRemove k d4) (dictRemove k d4) [] = some out
    have hcands : ∀ p ∈ dictRemove k d4, colourCandidate p.1 ≠ k := by
      intro p hp
      have hpd4 := (mem_dictRemove _ _ _ hp).1
      rcases mem_of_transformState attrs d4 p hst hpd4 with ⟨hpa, _, _⟩ | hcl | hstz
      · exact hnocand p hpa
      · rw [hcl, (by decide : colourCandidate "class" = "class")]
        exact Ne.symm hkaux.2.2
      · rw [hstz, (by decide : colourCandidate "style" = "style")]
        exact Ne.symm hkaux.2.1
    rw [transformLoop_lookup_erase d4 k (dictRemove k d4) [] hcands]
    rw [← transformLoop_erase_skipped d4 k hskipk d4 []]
    exact hloop
  · -- the colour-spelled key's value appears under nk
    obtain ⟨s, t, hdec⟩ := List.append_of_mem hkc4
    have hkct : ∀ p ∈ t, p.1 ≠ kc := by
      intro p hp e
      have hkeys : alistKeys d4 = alistKeys s ++ kc :: alistKeys t := by
        rw [hdec]; simp [alistKeys]
      rw [hkeys] at hnd4
      have h2 := (List.nodup_cons.mp (hnd4.of_append_right)).1
      exact h2 (by rw [← e]; exact List.mem_map.mpr ⟨p, hp, rfl⟩)
    have hkc4d : (kc, vc) ∈ s ++ (kc, vc) :: t := by rw [← hdec]; exact hkc4
    rw [hdec] at hloop
    rw [transformLoop_append] at hloop
    cases h1 : transformLoop (s ++ (kc, vc) :: t) s [] with
    | none => rw [h1] at hloop; simp at hloop
    | some acc1 =>
      rw [h1] at hloop
      simp only [Option.some_bind] at hloop
      rw [transformLoop_step_write _ kc vc t acc1 ev nk
        (fun hsk => hsk.1 hcandc) hev hnk] at hloop
      have hfinal : alistFind nk out = alistFind nk (dictSet nk ev acc1) := by
        apply transformLoop_find_frame _ nk t _ out hloop
        intro p hp
        rcases mem_of_transformState attrs d4 p hst
            (by rw [hdec]; exact List.mem_append_right _ (List.mem_cons_of_mem _ hp)) with
          ⟨hpa, _, _⟩ | hcl | hstz
        · rcases honly p hpa (hkct p hp) with h1k | h2k
          · left
            refine ⟨by rw [h1k, hcand]; exact Ne.symm hne, ?_⟩
            rw [h1k, hcand]; exact alistFind_isSome_of_mem _ _ _ hkc4d
          · right; exact h2k
        · right; rw [hcl]
          intro e
          have : ("class" : String) = nk := by
            have := e
            rw [show normaliseKey "class" = some "class" from rfl] at this
            exact Option.some.injEq _ _ ▸ (by injection this)
          exact hnkclass this.symm
        · right; rw [hstz]
          intro e
          have : ("style" : String) = nk := by
            rw [show normaliseKey "style" = some "style" from rfl] at e
            injection e
          exact hnkstyle this.symm
      rw [hfinal, alistFind_dictSet_self]

/-- C6, witness: the colour-precedence rule evaluated on the central
non-`data-` pair `{"background_color": "blue", "background_colour": "red"}`:
removing `background_color` leaves the output unchanged, and the `colour` key's
value survives under `background-color`. -/
theorem C6_witness :
    (transform [("background_color", PyVal.str "blue"),
        ("background_colour", PyVal.str "red")] = some [("background-color", "\"red\"")] ∧
      colourCandidate "background_color" = "background_colour" ∧
      normaliseKey "background_colour" = some "background-color") ∧
    (transform (dictRemove "background_color"
        [("background_color", PyVal.str "blue"), ("background_colour", PyVal.str "red")]) =
      some [("background-color", "\"red\"")] ∧
      alistFind "background-color" [("background-color", ("\"red\"" : String))] =
        some "\"red\"") :=
  ⟨⟨by decide, by decide, by decide⟩,
    C6_colourPrecedenceRule
      [("background_color", PyVal.str "blue"), ("background_colour", PyVal.str "red")]
      [("background-color", "\"red\"")]
      "background_color" "background_colour" "background-color"
      (PyVal.str "blue") (PyVal.str "red") "\"red\""
      (by decide) (by decide) (by decide) (by decide) (by decide) (by decide) (by decide)
      (by decide) (by decide) (by decide) (by decide) (by decide) (by decide) (by decide)⟩

/-- C7: the two colour-spelling exemption checks act at different
normalisation stages. `data_color` (underscore form) does not literally start
with `data-`, so it is not exempt from the dedup check and is dropped whenever
`data_colour` is also present; the surviving key starts with `data-` only
after hyphenation, is therefore exempt from the `colour` to `color` rename,
and is emitted as `data-colour` — whatever the two values and in either order. -/
theorem C7_dataColourTwoStageChecks (v1 v2 : PyVal) (ev : String)
    (hev : encodeValue v2 = some ev) :
    transform [("data_color", v1), ("data_colour", v2)] = some [("data-colour", ev)] ∧
    transform [("data_colour", v2), ("data_color", v1)] = some [("data-colour", ev)] := by
  have hcand1 : colourCandidate "data_color" = "data_colour" := rfl
  have hcand2 : colourCandidate "data_colour" = "data_colour" := rfl
  have hnk : normaliseKey "data_colour" = some "data-colour" := rfl
  constructor
  · simp [transform, transformState, classStage, styleStage, alistFind, dictRemove, truthy,
      transformLoop, hcand1, hcand2, hnk, hev, dictSet]
  · simp [transform, transformState, classStage, styleStage, alistFind, dictRemove, truthy,
      transformLoop, hcand1, hcand2, hnk, hev, dictSet]

/-- C7, witness: the two-stage behaviour at the concrete values `1` and
`"red"`. -/
theorem C7_witness :
    encodeValue (PyVal.str "red") = some "\"red\"" ∧
    transform [("data_color", PyVal.int 1), ("data_colour", PyVal.str "red")] =
      some [("data-colour", "\"red\"")] :=
  ⟨by decide, (C7_dataColourTwoStageChecks (PyVal.int 1) (PyVal.str "red") "\"red\""
    (by decide)).1⟩

theorem strip_eq_refStrip (k : List Char) (hne : k ≠ []) (hu : k ≠ ['_']) :
    stripTrailingUnderscore k = some (refStrip k) := by
  unfold stripTrailingUnderscore refStrip
  cases hc : k.getLast? with
  | none => exact absurd (List.getLast?_eq_none_iff.mp hc) hne
  | some c =>
    by_cases hcu : c = '_'
    · subst hcu
      cases hc2 : k.dropLast.getLast? with
      | none =>
        have hdrop : k.dropLast = [] := List.getLast?_eq_none_iff.mp hc2
        have hk : k = ['_'] := by
          have := List.dropLast_append_getLast hne
          rw [hdrop, List.nil_append] at this
          rw [← this]
          have hlast := List.getLast?_eq_getLast k hne
          rw [hc] at hlast
          simp at hlast
          rw [hlast]
        exact absurd hk hu
      | some c2 =>
        by_cases hc2u : c2 = '_'
        · subst hc2u
          simp
        · simp [hc2u]
    · simp [hcu]

theorem replaceChain_eq_uref (s : List Char) :
    ' ' ∉ s → mapChar ' ' '_' (mapChar '_' '-' (replaceDunderSpace s)) = urefChars s := by
  induction s using urefChars.induct with
  | case1 => intro _; rfl
  | case2 c =>
    intro h
    have hc : ¬(c = ' ') := fun e => h (by simp [e])
    by_cases hcu : c = '_' <;> simp [replaceDunderSpace, mapChar, urefChars, hcu, hc]
  | case3 c1 c2 t h12 ih =>
    intro h
    have ht : ' ' ∉ t := fun e => h (by simp [e])
    obtain ⟨rfl, rfl⟩ := h12
    have hpos : ('_' : Char) = '_' ∧ ('_' : Char) = '_' := ⟨rfl, rfl⟩
    simp only [replaceDunderSpace, if_pos hpos, urefChars]
    simp only [mapChar, List.map_cons] at ih ⊢
    simp [ih ht]
  | case4 c1 c2 t h12 ih =>
    intro h
    have h1 : ¬(c1 = ' ') := fun e => h (by simp [e])
    have ht : ' ' ∉ c2 :: t := fun e => h (by simp at e ⊢; tauto)
    simp only [replaceDunderSpace, if_neg h12, urefChars]
    simp only [mapChar, List.map_cons] at ih ⊢
    rw [ih ht]
    by_cases hcu : c1 = '_' <;> simp [hcu, h1]

/-- C8, amended: for every nonempty attribute key other than the bare
underscore `"_"` that contains no space character, the underscore stage of the
per-pair key normalisation equals the spec's description: a single trailing
underscore not preceded by another underscore is removed, each `__` becomes a
literal `_`, each remaining `_` becomes `-`, and no other character changes.
(An empty key or the key `"_"` raises `IndexError`; a space in the key is
turned into `_` by the placeholder trick, see the counterexample.) -/
theorem C8_underscoreStageMatchesSpec (k : List Char)
    (hne : k ≠ []) (hu : k ≠ ['_']) (hsp : ' ' ∉ k) :
    underscoreStage k = some (urefChars (refStrip k)) := by
  rw [underscoreStage, strip_eq_refStrip k hne hu, Option.map_some']
  have hsp2 : ' ' ∉ refStrip k := by
    unfold refStrip
    split
    · exact fun e => hsp ((List.dropLast_sublist k).subset e)
    · exact hsp
  rw [replaceChain_eq_uref _ hsp2]

/-- C8, witness: the underscore stage agrees with the spec's description on
the key `a__b_c_`. -/
theorem C8_witness :
    ("a__b_c_".data ≠ [] ∧ "a__b_c_".data ≠ ['_'] ∧ ' ' ∉ "a__b_c_".data) ∧
    underscoreStage "a__b_c_".data = some (urefChars (refStrip "a__b_c_".data)) :=
  ⟨⟨by decide, by decide, by decide⟩,
    C8_underscoreStageMatchesSpec _ (by decide) (by decide) (by decide)⟩

/-- C9, amended: for every Container with `n ≥ 1` children whose serialisations
are nonempty lines free of line-boundary characters, and whose tag and
serialised attribute text contain no newline: the minified serialisation
contains no newline; the pretty serialisation is the open-tag line, a newline,
the children's lines each prefixed with exactly four more spaces and joined by
newlines, a newline and the close-tag line — hence it contains exactly `n + 1`
newlines. (A container with zero children pretty-prints with two newlines, see
the counterexample.) -/
theorem C9_containerSerialisationShape (t : String) (a : List (String × String))
    (cs : List Elem)
    (hcs : cs ≠ [])
    (htag : '\n' ∉ t.data)
    (hattr : '\n' ∉ (attrString a).data)
    (hmin : ∀ e ∈ cs, '\n' ∉ (serialise e true).data)
    (hpretty : ∀ e ∈ cs, serialise e false ≠ "" ∧
      ∀ c ∈ (serialise e false).data, ¬isLineBoundary c = true) :
    countNl (serialise (.container t a cs) true) = 0 ∧
    serialise (.container t a cs) false =
      "<" ++ t ++ attrString a ++ ">" ++ "\n" ++
        joinSep "\n" ((serialiseList cs false).map ("    " ++ ·)) ++ "\n" ++ "</" ++ t ++ ">" ∧
    countNl (serialise (.container t a cs) false) = cs.length + 1 := by
  have hser : ∀ m : Bool, serialise (.container t a cs) m =
      "<" ++ t ++ attrString a ++ ">" ++ (if m then "" else "\n") ++
        pyIndent "    " (!m) (joinSep (if m then "" else "\n") (serialiseList cs m)) ++
        (if m then "" else "\n") ++ "</" ++ t ++ ">" := fun m => rfl
  have hzero : ∀ l ∈ serialiseList cs true, countNl l = 0 := by
    rw [serialiseList_eq_map]
    intro l hl
    obtain ⟨e, he, rfl⟩ := List.mem_map.mp hl
    exact countNl_eq_zero _ (hmin e he)
  have hlines : ∀ l ∈ serialiseList cs false, l ≠ "" ∧
      ∀ c ∈ l.data, ¬isLineBoundary c = true := by
    rw [serialiseList_eq_map]
    intro l hl
    obtain ⟨e, he, rfl⟩ := List.mem_map.mp hl
    exact hpretty e he
  have hlne : serialiseList cs false ≠ [] := by
    rw [serialiseList_eq_map]
    simp [hcs]
  have hlinesNl : ∀ l ∈ (serialiseList cs false).map ("    " ++ ·), countNl l = 0 := by
    intro l hl
    obtain ⟨l0, hl0, rfl⟩ := List.mem_map.mp hl
    rw [countNl_append]
    have h0 : countNl l0 = 0 := by
      apply countNl_eq_zero
      intro hc
      exact (hlines l0 hl0).2 '\n' hc (by decide)
    rw [h0]
    rfl
  have hpret : serialise (.container t a cs) false =
      "<" ++ t ++ attrString a ++ ">" ++ "\n" ++
        joinSep "\n" ((serialiseList cs false).map ("    " ++ ·)) ++ "\n" ++ "</" ++ t ++ ">" := by
    rw [hser false]
    simp only [Bool.not_false, if_neg (by decide : ¬(false = true))]
    rw [pyIndent_joinSep "    " (serialiseList cs false) hlne hlines]
  refine ⟨?_, hpret, ?_⟩
  · rw [hser true]
    simp only [Bool.not_true, eq_self_iff_true, if_true]
    rw [pyIndent_not_apply]
    simp only [countNl_append]
    rw [countNl_joinSep_empty (serialiseList cs true) hzero,
      countNl_eq_zero _ htag, countNl_eq_zero _ hattr]
    have h1 : countNl "<" = 0 := rfl
    have h2 : countNl ">" = 0 := rfl
    have h4 : countNl "</" = 0 := rfl
    have h5 : countNl "" = 0 := rfl
    omega
  · rw [hpret]
    simp only [countNl_append]
    have hjoin := countNl_joinSep_nl ((serialiseList cs false).map ("    " ++ ·))
      (by simp [hlne]) hlinesNl
    have hlen : ((serialiseList cs false).map ("    " ++ ·)).length = cs.length := by
      rw [List.length_map, serialiseList_eq_map, List.length_map]
    rw [hlen] at hjoin
    rw [countNl_eq_zero _ htag, countNl_eq_zero _ hattr]
    have h1 : countNl "<" = 0 := rfl
    have h2 : countNl ">" = 0 := rfl
    have h3 : countNl "\n" = 1 := rfl
    have h4 : countNl "</" = 0 := rfl
    omega

/-- C9, witness: the container shape evaluated on
`Container(tag="div", attributes={"id": 1}, content=["hi", "ho"])`. -/
theorem C9_witness :
    (([Elem.text "hi", Elem.text "ho"] : List Elem) ≠ [] ∧
      '\x0a' ∉ ("div" : String).data ∧
      '\n' ∉ (attrString [("id", "\"1\"")]).data) ∧
    (countNl (serialise (.container "div" [("id", "\"1\"")]
        [Elem.text "hi", Elem.text "ho"]) true) = 0 ∧
      serialise (.container "div" [("id", "\"1\"")] [Elem.text "hi", Elem.text "ho"]) false =
        "<" ++ "div" ++ attrString [("id", "\"1\"")] ++ ">" ++ "\n" ++
          joinSep "\n" ((serialiseList [Elem.text "hi", Elem.text "ho"] false).map
            ("    " ++ ·)) ++ "\n" ++ "</" ++ "div" ++ ">" ∧
      countNl (serialise (.container "div" [("id", "\"1\"")]
        [Elem.text "hi", Elem.text "ho"]) false) =
        ([Elem.text "hi", Elem.text "ho"] : List Elem).length + 1) :=
  ⟨⟨by simp, by decide, by decide⟩,
    C9_containerSerialisationShape "div" [("id", "\"1\"")] [Elem.text "hi", Elem.text "ho"]
      (by simp) (by decide) (by decide)
      (by
        intro e he
        simp only [List.mem_cons, List.not_mem_nil, or_false] at he
        rcases he with rfl | rfl <;> decide)
      (by
        intro e he
        simp only [List.mem_cons, List.not_mem_nil, or_false] at he
        rcases he with rfl | rfl <;> exact ⟨by decide, by decide⟩)⟩

/-- C9, counterexample: a Container with zero children pretty-prints with two
newlines (one after the open tag and one before the close tag), not `0 + 1`. -/
theorem C9_counterexample :
    countNl (serialise (.container "div" [] []) false) = 2 ∧ (2 : Nat) ≠ 0 + 1 := by
  exact ⟨by decide, by decide⟩

end Domgen
